import Mathlib

/-!
Verification development for the `arbo` path-list-to-tree renderer.

The Python source is shallowly embedded:
  * strings are `List Char`;
  * `Node` objects live in an arena (`List PyNode`), a node reference is its
    arena index (`Nat`), so Python reference identity becomes index equality;
  * generators become functions returning lists;
  * the `readline0` generator's termination behaviour is made explicit.
-/

set_option linter.unusedVariables false

/-- Sentinel for the filesystem root (`SLASH = '/'` in `arbo.py`). -/
def SLASH : List Char := ("/").toList

/-- Sentinel for the POSIX alternative root (`SLASHSLASH = '//'` in `arbo.py`). -/
def SLASHSLASH : List Char := ("//").toList

/-- `SPECIALS = (SLASH, SLASHSLASH)` from `arbo.py`. -/
def SPECIALS : List (List Char) := [SLASH, SLASHSLASH]

/-- Python's `str.split(sep)` for a one-character separator: splits a string
into the (possibly empty) pieces between occurrences of `sep`.
`splitCh sep "" = [""]`, exactly like Python. -/
def splitCh (sep : Char) : List Char → List (List Char)
  | [] => [[]]
  | c :: cs =>
    if c = sep then [] :: splitCh sep cs
    else
      match splitCh sep cs with
      | [] => [[c]]
      | f :: rest => (c :: f) :: rest

/-- The list comprehension `[el for el in path_str.split('/') if el]` shared by
all three branches of `split_line`: the non-empty `/`-separated segments. -/
def literal_components (p : List Char) : List (List Char) :=
  (splitCh '/' p).filter (fun el => el ≠ [])

/-- `split_line` from `arbo.py`: leading `//` (but not `///`) yields the
`SLASHSLASH` sentinel, any other leading `/` yields the `SLASH` sentinel,
followed in every case by the non-empty segments. -/
def split_line (p : List Char) : List (List Char) :=
  if p.take 2 = SLASHSLASH ∧ p.take 3 ≠ ('/' :: SLASHSLASH) then
    SLASHSLASH :: literal_components p
  else if p.take 1 = SLASH then
    SLASH :: literal_components p
  else
    literal_components p

/-- One tree node, mirroring class `Node` of `arbo.py`: a value, an optional
color (set by decoration), and the ordered list of children, stored as arena
indices. -/
structure PyNode where
  value : List Char
  color : Option (List Char)
  children : List Nat
deriving DecidableEq

/-- The node arena: all `Node` objects ever allocated, in allocation order.
A Python object reference is an index into this list. -/
abbrev Arena := List PyNode

/-- Placeholder returned when an arena index is out of range (never happens in
reachable states). -/
def dummyNode : PyNode := ⟨[], none, []⟩

/-- Dereference a node. -/
def nodeAt (a : Arena) (i : Nat) : PyNode := a.getD i dummyNode

/-- `parent.children.append(node)` from `arbo.py`, on the arena. -/
def appendChild (a : Arena) (pid cid : Nat) : Arena :=
  a.set pid { nodeAt a pid with children := (nodeAt a pid).children ++ [cid] }

/-- The per-line loop body of `tree_from_line_iter`: walk the current line's
components against the previous path's node list (`prev`), reusing nodes until
the first divergence and allocating fresh child nodes afterwards.  Returns the
grown arena and this line's node path. -/
def processComps (a : Arena) (prev : List Nat) (parent : Nat) (div : Bool) :
    List (List Char) → Arena × List Nat
  | [] => (a, [])
  | c :: cs =>
    let diverged := div ||
      (match prev.head? with
       | none => true
       | some id0 => decide (¬ (nodeAt a id0).value = c))
    if diverged then
      let nid := a.length
      let a2 := appendChild (a ++ [⟨c, none, []⟩]) parent nid
      let r := processComps a2 prev.tail nid diverged cs
      (r.1, nid :: r.2)
    else
      let id0 := prev.headD 0
      let r := processComps a prev.tail id0 diverged cs
      (r.1, id0 :: r.2)

/-- Process one input line: split it and merge it into the tree.  The parent
starts at the `ROOT` node (arena index 0) and divergence starts `False`. -/
def treeStep (st : Arena × List Nat) (line : List Char) : Arena × List Nat :=
  processComps st.1 st.2 0 false (split_line line)

/-- The synthetic root: `Node('ROOT')`. -/
def rootNode : PyNode := ⟨("ROOT").toList, none, []⟩

/-- Arena and previous-node-path after feeding all lines to the builder loop of
`tree_from_line_iter`. -/
def buildState (lines : List (List Char)) : Arena × List Nat :=
  lines.foldl treeStep ([rootNode], [])

/-- `tree_from_line_iter` from `arbo.py`: build the tree, then, under
`skip_dot`, replace the root by its sole `'.'` child when there is one.
Returns the arena together with the index of the returned root node.
The `colorize` parameter is accepted and unused, as in the source. -/
def tree_from_line_iter (lines : List (List Char)) (skip_dot : Bool)
    (colorize : Bool) : Arena × Nat :=
  let st := buildState lines
  let a := st.1
  if skip_dot ∧ (nodeAt a 0).children.length = 1 ∧
      (nodeAt a ((nodeAt a 0).children.headD 0)).value = ['.'] then
    (a, (nodeAt a 0).children.headD 0)
  else
    (a, 0)

/-- Whether, while processing components `cs` against previous node path
`prev` over arena `a`, position `i` is a divergence point: no previous node
exists there, or its value differs from the component
(`node0 is None or node0.value != str_comp`). -/
def divergedAt (a : Arena) (prev : List Nat) (cs : List (List Char)) (i : Nat) :
    Prop :=
  prev.length ≤ i ∨ (nodeAt a (prev.getD i 0)).value ≠ cs.getD i []

instance (a : Arena) (prev : List Nat) (cs : List (List Char)) (i : Nat) :
    Decidable (divergedAt a prev cs i) := by
  unfold divergedAt; infer_instance

/-- `START_COLOR`/`END_COLOR` reset sequence, `'\033[0m'`. -/
def END_COLOR : List Char := ("\x1b[0m").toList

/-- The bare `ls` terminator line `END_LS = '\033[m'`. -/
def END_LS : List Char := ("\x1b[m").toList

/-- A narrow display style: `(blank, vertical bar, corner, tee)` in the order
of `STYLE_ASCII`/`STYLE_UNICODE` in `arbo.py`. -/
structure Style4 where
  s0 : List Char
  s1 : List Char
  s2 : List Char
  s3 : List Char

/-- `STYLE_ASCII = ('   ', '|  ', '`- ', '|- ')`. -/
def STYLE_ASCII : Style4 :=
  ⟨("   ").toList, ("|  ").toList, ("`- ").toList, ("|- ").toList⟩

/-- `STYLE_UNICODE = ('   ', '│  ', '└─ ', '├─ ')`. -/
def STYLE_UNICODE : Style4 :=
  ⟨("   ").toList, ("│  ").toList, ("└─ ").toList, ("├─ ").toList⟩

/-- A pure tree read back from the arena, for traversal. -/
inductive PTree where
  | mk (value : List Char) (color : Option (List Char)) (children : List PTree)

/-- Value of a `PTree` node. -/
def PTree.value : PTree → List Char
  | .mk v _ _ => v

/-- Children of a `PTree` node. -/
def PTree.children : PTree → List PTree
  | .mk _ _ cs => cs

/-- Read the tree rooted at arena index `i` out of the arena.  `fuel` bounds
the recursion depth; any `fuel` at least the tree height (for instance, the
arena size) reproduces the whole tree, since the builder only ever links a
parent to strictly younger nodes. -/
def toPTree : Nat → Arena → Nat → PTree
  | 0, a, i => PTree.mk (nodeAt a i).value (nodeAt a i).color []
  | fuel + 1, a, i =>
    PTree.mk (nodeAt a i).value (nodeAt a i).color
      ((nodeAt a i).children.map (toPTree fuel a))

/-- `iter_with_first_last` from `arbo.py`: tag each element with its
`is_first_sib` / `is_last_sib` flags.  The first argument of the pair-producing
walk is the running `is_first` flag, initially `true`. -/
def withFirstLast : List PTree → Bool → List (PTree × Bool × Bool)
  | [], _ => []
  | [x], isF => [(x, isF, true)]
  | x :: y :: ys, isF => (x, isF, false) :: withFirstLast (y :: ys) false

/-- One `NodeTraversal` cursor, as produced during the depth-first walk:
the node's value, color and child count, its depth below ROOT (ROOT has depth
0), the `is_last_sib` flags of its ancestors at depths `1 .. depth-1`
(outermost first — `iter_parents(min_depth=2)` is `ancFlags.drop 1`), its own
first/last-sibling flags, and its `path_str`. -/
structure NT where
  value : List Char
  color : Option (List Char)
  numChildren : Nat
  depth : Nat
  ancFlags : List Bool
  is_first_sib : Bool
  is_last_sib : Bool
  pathStr : List Char
deriving DecidableEq

/-- Placeholder cursor. -/
def dummyNT : NT := ⟨[], none, 0, 0, [], false, false, []⟩

/-- The test `self.parent not in SPECIALS` inside `NodeTraversal.path_str`
compares `self.parent` — a `NodeTraversal` object — against the tuple of
strings `('/', '//')`.  A `NodeTraversal` never equals a string under Python
equality, so the membership test is always `False` (and the `not in` always
`True`).  We embed the membership test itself; it is constantly `false`. -/
def nt_parent_in_specials : Bool := false

/-- `NodeTraversal.path_str`: below depth 2 the path is just the node's value
(the ROOT node is not used in paths); from depth 2 on, the parent's path plus
a separator — the separator is skipped only when `nt_parent_in_specials` holds,
which is never, so a `'/'` is appended even below a root sentinel. -/
def nt_path_str (v : List Char) (depth : Nat) (parentPath : List Char) :
    List Char :=
  if 2 ≤ depth then
    parentPath ++ (if nt_parent_in_specials then [] else ['/']) ++ v
  else v

/-- `traverse_tree` from `arbo.py`: yield the cursor for this node, then
recursively the cursors of its children in order, tagged with first/last
flags.  `fuel` bounds the depth as in `toPTree`. -/
def travNT : Nat → PTree → Nat → List Bool → Bool → Bool → List Char → List NT
  | 0, _, _, _, _, _, _ => []
  | fuel + 1, PTree.mk v col kids, depth, anc, isF, isL, ppath =>
    let myPath := nt_path_str v depth ppath
    { value := v, color := col, numChildren := kids.length, depth := depth,
      ancFlags := anc, is_first_sib := isF, is_last_sib := isL,
      pathStr := myPath } ::
    List.flatten ((withFirstLast kids true).map
      (fun e => travNT fuel e.1 (depth + 1) (anc ++ [isL]) e.2.1 e.2.2 myPath))

/-- `traverse_tree_skip_root`: the cursors of the whole tree in depth-first
order, skipping the synthetic ROOT itself. -/
def traverse_tree_skip_root (fuel : Nat) (t : PTree) : List NT :=
  List.flatten ((withFirstLast t.children true).map
    (fun e => travNT fuel e.1 1 [] e.2.1 e.2.2 t.value))

/-- The cursor stream of the tree built from `lines` (no `skip_dot`, no
decoration), as fed to the displays. -/
def tree_cursors (lines : List (List Char)) : List NT :=
  let r := tree_from_line_iter lines false false
  traverse_tree_skip_root (r.1.length + 1) (toPTree (r.1.length + 1) r.1 r.2)

/-- `Node.pvalue`: the value, wrapped in the color escape and `END_COLOR` when
a color was set. -/
def pvalue (nt : NT) : List Char :=
  match nt.color with
  | some c => c ++ nt.value ++ END_COLOR
  | none => nt.value

/-- The continuation glyphs for the ancestors produced by
`iter_parents(min_depth=2)`: blank for a last sibling, vertical bar
otherwise. -/
def ancGlyphs (style : Style4) : List Bool → List Char
  | [] => []
  | b :: bs => (if b then style.s0 else style.s1) ++ ancGlyphs style bs

/-- The loop body of `display_tree_narrow`; the `Bool` is the running
`is_single_child` flag (whether the previous cursor had exactly one child). -/
def display_tree_narrow_go (style : Style4) : Bool → List NT → List Char
  | _, [] => []
  | isSingle, nt :: rest =>
    (if isSingle = false ∧ 2 ≤ nt.depth then
      ancGlyphs style (nt.ancFlags.drop 1) ++
        (if nt.is_last_sib then style.s2 else style.s3)
     else []) ++
    pvalue nt ++
    (if nt.numChildren ≠ 1 then ['\n']
     else if nt.value ∈ SPECIALS then [] else ['/']) ++
    display_tree_narrow_go style (nt.numChildren == 1) rest

/-- `display_tree_narrow` from `arbo.py`, as a function from the cursor stream
to the emitted characters.  `is_single_child` starts `False`. -/
def display_tree_narrow (style : Style4) (cursors : List NT) : List Char :=
  display_tree_narrow_go style false cursors

/-- Full narrow pipeline on raw input lines: build the tree and render it
(without decoration, without `skip_dot`). -/
def render_narrow (style : Style4) (lines : List (List Char)) : List Char :=
  display_tree_narrow style (tree_cursors lines)

/-- How a Python generator's iteration ends: normally, or — for a generator
body that raises `StopIteration`, which PEP 479 (Python ≥ 3.7) converts to
`RuntimeError` — with an error. -/
inductive GenEnd where
  | normal
  | runtimeError
deriving DecidableEq

/-- The `while True` loop of `readline0` in `arbo_readline0.py`.  Arguments:
the blocks still to be read (a `file.read` past the end yields an empty
block), the current `buffer`, and the current `fields`.  Returns the fields
yielded from this point on.  Faithful to the source: on the first pass
(`fields` empty) a non-empty block becomes the buffer; afterwards, if the
buffer ended in the separator the next block replaces it, otherwise the
trailing partial field is prepended to the next block (or yielded at end of
input); each pass splits the buffer and yields all fields but the last. -/
def r0go (sep : Char) : List (List Char) → List Char → List (List Char) →
    List (List Char)
  | [], buffer, fields =>
    match fields with
    | [] => []
    | _ :: _ =>
      if buffer.getLast? = some sep then [] else [fields.getLastD []]
  | b :: bs, buffer, fields =>
    if b = [] then
      match fields with
      | [] => []
      | _ :: _ =>
        if buffer.getLast? = some sep then [] else [fields.getLastD []]
    else
      let buf2 :=
        match fields with
        | [] => b
        | _ :: _ =>
          if buffer.getLast? = some sep then b else fields.getLastD [] ++ b
      (splitCh sep buf2).dropLast ++ r0go sep bs buf2 (splitCh sep buf2)

/-- `readline0` from `arbo_readline0.py` on a stream delivered as a list of
(non-empty) blocks: the yielded fields, paired with how iteration ends.
Every exit from the loop falls through to the trailing `raise StopIteration`,
which PEP 479 turns into a `RuntimeError` on Python ≥ 3.7, so the end marker
is always `runtimeError`. -/
def readline0 (sep : Char) (blocks : List (List Char)) :
    List (List Char) × GenEnd :=
  (r0go sep blocks [] [], GenEnd.runtimeError)

/-- Concatenation of a list of blocks into the underlying stream. -/
def listJoin : List (List Char) → List Char
  | [] => []
  | b :: bs => b ++ listJoin bs

/-- The separator-delimited fields of a stream, as the spec describes them:
split on the separator; the final empty field produced by a terminating
separator is not a record, while a non-empty trailing partial field is. -/
def delimitedFields (sep : Char) (s : List Char) : List (List Char) :=
  if (splitCh sep s).getLastD [] = [] then (splitCh sep s).dropLast
  else (splitCh sep s).dropLast ++ [(splitCh sep s).getLastD []]

/-- Whether a response line is the bare `ls` reset artifact
(`line == END_LS`). -/
def isResetArtifact (l : List Char) : Bool := l == END_LS

/-- The response-consuming loop of `postprocess_path`: walk the response
lines; a bare reset artifact is skipped without consuming a request slot; any
other line consumes the next node of the batch (`next(nt_iter)` — exhaustion
raises) and must parse into an optional color and a content
(`WITH_COLOR_RE.match(line).groups()` — a failed match raises); on success
the node's `color` and `value` are set from the line.  The regex itself is
abstracted as the `parse` function.  Returns the updated batch or an error. -/
def ppLoop (parse : List Char → Option (Option (List Char) × List Char)) :
    List (List Char) → List PyNode → Except Unit (List PyNode)
  | [], nodes => Except.ok nodes
  | l :: ls, nodes =>
    if isResetArtifact l then ppLoop parse ls nodes
    else
      match nodes with
      | [] => Except.error ()
      | n :: ns =>
        match parse l with
        | none => Except.error ()
        | some cv =>
          match ppLoop parse ls ns with
          | Except.error e => Except.error e
          | Except.ok rest =>
            Except.ok ({ n with color := cv.1, value := cv.2 } :: rest)

/-- `postprocess_path` from `arbo.py`, over an abstract collaborator response:
run the response loop over the batch, then `proc.wait()` — a nonzero exit
status raises `RuntimeError`. -/
def postprocess_path (parse : List Char → Option (Option (List Char) × List Char))
    (respLines : List (List Char)) (exitCode : Nat) (batch : List PyNode) :
    Except Unit (List PyNode) :=
  match ppLoop parse respLines batch with
  | Except.error e => Except.error e
  | Except.ok r => if exitCode = 0 then Except.ok r else Except.error ()

/-- How one node of the batch is rewritten by one successfully parsed response
line. -/
def decorateNode (parse : List Char → Option (Option (List Char) × List Char))
    (n : PyNode) (l : List Char) : PyNode :=
  match parse l with
  | some cv => { n with color := cv.1, value := cv.2 }
  | none => n

/-- The divergence test of one builder iteration
(`diverged or node0 is None or node0.value != str_comp`), as a `Bool`. -/
def divTest (a : Arena) (prev : List Nat) (div : Bool) (c : List Char) : Bool :=
  div ||
    (match prev.head? with
     | none => true
     | some id0 => decide (¬ (nodeAt a id0).value = c))

/-- A trivially successful response parser (used to instantiate the abstract
decorator at concrete inputs): no style prefix, the line itself as content. -/
def parseEcho : List Char → Option (Option (List Char) × List Char) :=
  fun l => some (none, l)
theorem splitCh_ne_nil (sep : Char) (l : List Char) : splitCh sep l ≠ [] := by
  induction l with
  | nil => simp [splitCh]
  | cons c cs ih =>
    simp only [splitCh]
    split
    · simp
    · cases h : splitCh sep cs with
      | nil => simp
      | cons f rest => simp

theorem splitCh_mem_not_sep {sep : Char} {l c : List Char}
    (h : c ∈ splitCh sep l) : sep ∉ c := by
  induction l generalizing c with
  | nil =>
    simp [splitCh] at h
    simp [h]
  | cons x xs ih =>
    simp only [splitCh] at h
    by_cases hx : x = sep
    · simp [hx] at h
      rcases h with h | h
      · simp [h]
      · exact ih h
    · simp [hx] at h
      cases hs : splitCh sep xs with
      | nil => exact absurd hs (splitCh_ne_nil sep xs)
      | cons f rest =>
        rw [hs] at h
        simp at h
        rcases h with h | h
        · subst h
          intro hmem
          simp at hmem
          rcases hmem with hmem | hmem
          · exact hx hmem.symm
          · exact ih (hs ▸ List.mem_cons_self f rest) hmem
        · exact ih (hs ▸ List.mem_cons_of_mem f h)

theorem literal_components_spec (p : List Char) :
    ∀ c ∈ literal_components p, c ≠ [] ∧ '/' ∉ c ∧ c ≠ SLASH ∧ c ≠ SLASHSLASH := by
  intro c hc
  unfold literal_components at hc
  rw [List.mem_filter] at hc
  obtain ⟨hmem, hne⟩ := hc
  have hnosl : '/' ∉ c := splitCh_mem_not_sep hmem
  refine ⟨by simpa using hne, hnosl, ?_, ?_⟩
  · intro h
    subst h
    exact hnosl (by decide)
  · intro h
    subst h
    exact hnosl (by decide)

theorem split_line_shape (p : List Char) :
    split_line p = literal_components p ∨
    split_line p = SLASH :: literal_components p ∨
    split_line p = SLASHSLASH :: literal_components p := by
  unfold split_line
  split
  · right; right; rfl
  · split
    · right; left; rfl
    · left; rfl

theorem processComps_nil (a : Arena) (prev : List Nat) (parent : Nat)
    (div : Bool) : processComps a prev parent div [] = (a, []) := rfl

theorem processComps_cons_true (a : Arena) (prev : List Nat) (parent : Nat)
    (div : Bool) (c : List Char) (cs : List (List Char))
    (h : divTest a prev div c = true) :
    processComps a prev parent div (c :: cs) =
      ((processComps (appendChild (a ++ [⟨c, none, []⟩]) parent a.length)
          prev.tail a.length true cs).1,
       a.length ::
        (processComps (appendChild (a ++ [⟨c, none, []⟩]) parent a.length)
          prev.tail a.length true cs).2) := by
  unfold divTest at h
  simp only [processComps, h]
  simp

theorem processComps_cons_false (a : Arena) (prev : List Nat) (parent : Nat)
    (div : Bool) (c : List Char) (cs : List (List Char))
    (h : divTest a prev div c = false) :
    processComps a prev parent div (c :: cs) =
      ((processComps a prev.tail (prev.headD 0) false cs).1,
       prev.headD 0 ::
        (processComps a prev.tail (prev.headD 0) false cs).2) := by
  unfold divTest at h
  simp only [processComps, h]
  simp

theorem nodeAt_append_lt (a : Arena) (x : PyNode) {i : Nat} (h : i < a.length) :
    nodeAt (a ++ [x]) i = nodeAt a i := by
  unfold nodeAt
  rw [List.getD_eq_getElem?_getD, List.getD_eq_getElem?_getD,
    List.getElem?_append, if_pos h]

theorem nodeAt_append_self (a : Arena) (x : PyNode) :
    nodeAt (a ++ [x]) a.length = x := by
  unfold nodeAt
  rw [List.getD_eq_getElem?_getD, List.getElem?_concat_length]
  rfl

theorem length_appendChild (a : Arena) (p c : Nat) :
    (appendChild a p c).length = a.length := by
  unfold appendChild
  exact List.length_set a p _

theorem nodeAt_appendChild_ne (a : Arena) {p : Nat} (c : Nat) {i : Nat}
    (h : p ≠ i) : nodeAt (appendChild a p c) i = nodeAt a i := by
  simp only [appendChild, nodeAt, List.getD_eq_getElem?_getD]
  rw [List.getElem?_set_ne h]

theorem nodeAt_appendChild_self (a : Arena) {p : Nat} (c : Nat)
    (h : p < a.length) :
    nodeAt (appendChild a p c) p =
      { nodeAt a p with children := (nodeAt a p).children ++ [c] } := by
  unfold appendChild nodeAt
  rw [List.getD_eq_getElem?_getD, List.getElem?_set_self h]
  rfl

theorem nodeAt_appendChild_value (a : Arena) (p c : Nat) (i : Nat) :
    (nodeAt (appendChild a p c) i).value = (nodeAt a i).value := by
  by_cases hp : p = i
  · subst hp
    by_cases hl : p < a.length
    · rw [nodeAt_appendChild_self a c hl]
    · simp only [appendChild, nodeAt, List.getD_eq_getElem?_getD]
      rw [List.getElem?_set, if_pos rfl, if_neg hl,
        List.getElem?_eq_none (Nat.le_of_not_lt hl)]
  · rw [nodeAt_appendChild_ne a c hp]

theorem nodeAt_appendChild_children_mono (a : Arena) (p c : Nat) (i : Nat)
    {id : Nat} (h : id ∈ (nodeAt a i).children) :
    id ∈ (nodeAt (appendChild a p c) i).children := by
  by_cases hp : p = i
  · subst hp
    by_cases hl : p < a.length
    · rw [nodeAt_appendChild_self a c hl]
      exact List.mem_append_left _ h
    · simp only [appendChild, nodeAt, List.getD_eq_getElem?_getD] at h ⊢
      rw [List.getElem?_set, if_pos rfl, if_neg hl,
        List.getElem?_eq_none (Nat.le_of_not_lt hl)] at *
      exact h
  · rw [nodeAt_appendChild_ne a c hp]
    exact h

theorem appendChild_mem_children (a : Arena) {p : Nat} (c : Nat)
    (h : p < a.length) : c ∈ (nodeAt (appendChild a p c) p).children := by
  rw [nodeAt_appendChild_self a c h]
  exact List.mem_append_right _ (List.mem_singleton.mpr rfl)

theorem nodeAt_out_of_range (a : Arena) {i : Nat} (h : a.length ≤ i) :
    nodeAt a i = dummyNode := by
  unfold nodeAt
  rw [List.getD_eq_getElem?_getD, List.getElem?_eq_none h]
  rfl

/-- Arena growth: processing components never shrinks the arena, never changes
the value of an existing node, and never removes a child link. -/
theorem processComps_grow (cs : List (List Char)) :
    ∀ (a : Arena) (prev : List Nat) (parent : Nat) (div : Bool),
      a.length ≤ (processComps a prev parent div cs).1.length ∧
      (∀ i, i < a.length →
        (nodeAt (processComps a prev parent div cs).1 i).value =
          (nodeAt a i).value) ∧
      (∀ i id, id ∈ (nodeAt a i).children →
        id ∈ (nodeAt (processComps a prev parent div cs).1 i).children) := by
  induction cs with
  | nil =>
    intro a prev parent div
    exact ⟨Nat.le_refl _, fun i _ => rfl, fun i id h => h⟩
  | cons c cs ih =>
    intro a prev parent div
    cases hc : divTest a prev div c with
    | true =>
      rw [processComps_cons_true a prev parent div c cs hc]
      set a2 := appendChild (a ++ [⟨c, none, []⟩]) parent a.length with ha2
      have hlen2 : a2.length = a.length + 1 := by
        rw [ha2, length_appendChild, List.length_append]
        simp
      obtain ⟨hle, hval, hch⟩ := ih a2 prev.tail a.length true
      refine ⟨by simp only []; omega, ?_, ?_⟩
      · intro i hi
        simp only []
        rw [hval i (by omega)]
        rw [ha2, nodeAt_appendChild_value, nodeAt_append_lt a _ hi]
      · intro i id h
        simp only []
        refine hch i id ?_
        rw [ha2]
        refine nodeAt_appendChild_children_mono _ _ _ _ ?_
        by_cases hi : i < a.length
        · rw [nodeAt_append_lt a _ hi]; exact h
        · rw [nodeAt_out_of_range a (by omega)] at h
          simp [dummyNode] at h
    | false =>
      rw [processComps_cons_false a prev parent div c cs hc]
      exact ih a prev.tail (prev.headD 0) false

theorem processComps_true_fst (a : Arena) (prev : List Nat) (parent : Nat)
    (div : Bool) (c : List Char) (cs : List (List Char))
    (h : divTest a prev div c = true) :
    (processComps a prev parent div (c :: cs)).1 =
      (processComps (appendChild (a ++ [⟨c, none, []⟩]) parent a.length)
        prev.tail a.length true cs).1 := by
  rw [processComps_cons_true a prev parent div c cs h]

theorem processComps_true_snd (a : Arena) (prev : List Nat) (parent : Nat)
    (div : Bool) (c : List Char) (cs : List (List Char))
    (h : divTest a prev div c = true) :
    (processComps a prev parent div (c :: cs)).2 =
      a.length ::
        (processComps (appendChild (a ++ [⟨c, none, []⟩]) parent a.length)
          prev.tail a.length true cs).2 := by
  rw [processComps_cons_true a prev parent div c cs h]

theorem processComps_false_fst (a : Arena) (prev : List Nat) (parent : Nat)
    (div : Bool) (c : List Char) (cs : List (List Char))
    (h : divTest a prev div c = false) :
    (processComps a prev parent div (c :: cs)).1 =
      (processComps a prev.tail (prev.headD 0) false cs).1 := by
  rw [processComps_cons_false a prev parent div c cs h]

theorem processComps_false_snd (a : Arena) (prev : List Nat) (parent : Nat)
    (div : Bool) (c : List Char) (cs : List (List Char))
    (h : divTest a prev div c = false) :
    (processComps a prev parent div (c :: cs)).2 =
      prev.headD 0 :: (processComps a prev.tail (prev.headD 0) false cs).2 := by
  rw [processComps_cons_false a prev parent div c cs h]

/-- Path specification: under a valid previous path, the node path returned
for `cs` has one node per component, each node carrying that component as its
value, and all node indices in range. -/
theorem processComps_path_spec (cs : List (List Char)) :
    ∀ (a : Arena) (prev : List Nat) (parent : Nat) (div : Bool),
      (∀ id ∈ prev, id < a.length) →
      (processComps a prev parent div cs).2.length = cs.length ∧
      (∀ i, i < cs.length →
        (nodeAt (processComps a prev parent div cs).1
          ((processComps a prev parent div cs).2.getD i 0)).value =
            cs.getD i []) ∧
      (∀ id ∈ (processComps a prev parent div cs).2,
        id < (processComps a prev parent div cs).1.length) := by
  induction cs with
  | nil =>
    intro a prev parent div hv
    simp [processComps_nil]
  | cons c cs ih =>
    intro a prev parent div hv
    cases hc : divTest a prev div c with
    | true =>
      rw [processComps_true_fst a prev parent div c cs hc,
        processComps_true_snd a prev parent div c cs hc]
      set a2 := appendChild (a ++ [⟨c, none, []⟩]) parent a.length with ha2
      have hlen2 : a2.length = a.length + 1 := by
        rw [ha2, length_appendChild, List.length_append]
        simp
      have hv2 : ∀ id ∈ prev.tail, id < a2.length := by
        intro id hid
        have := hv id (List.mem_of_mem_tail hid)
        omega
      obtain ⟨hplen, hpval, hpvalid⟩ := ih a2 prev.tail a.length true hv2
      obtain ⟨hle, hval, _⟩ := processComps_grow cs a2 prev.tail a.length true
      have hnewval : (nodeAt a2 a.length).value = c := by
        rw [ha2, nodeAt_appendChild_value, nodeAt_append_self]
      refine ⟨by simp only [List.length_cons, hplen], ?_, ?_⟩
      · intro i hi
        cases i with
        | zero =>
          simp only [List.getD_cons_zero]
          rw [hval a.length (by omega), hnewval]
        | succ j =>
          simp only [List.getD_cons_succ]
          exact hpval j (by simpa using hi)
      · intro id hid
        rcases List.mem_cons.mp hid with h | h
        · subst h
          omega
        · exact hpvalid id h
    | false =>
      rw [processComps_false_fst a prev parent div c cs hc,
        processComps_false_snd a prev parent div c cs hc]
      have hd : ∃ id0, prev.head? = some id0 ∧ (nodeAt a id0).value = c := by
        unfold divTest at hc
        cases hh : prev.head? with
        | none => rw [hh] at hc; simp at hc
        | some id0 =>
          rw [hh] at hc
          simp at hc
          exact ⟨id0, rfl, hc.2⟩
      obtain ⟨id0, hh, hval0⟩ := hd
      have hmem0 : id0 ∈ prev := by
        cases prev with
        | nil => simp at hh
        | cons p ps => simp at hh; simp [hh]
      have hhead : prev.headD 0 = id0 := by
        cases prev with
        | nil => simp at hh
        | cons p ps => simp at hh; simp [hh]
      have hid0 : prev.headD 0 < a.length := by
        rw [hhead]
        exact hv id0 hmem0
      have hval0h : (nodeAt a (prev.headD 0)).value = c := by
        rw [hhead]
        exact hval0
      have hv2 : ∀ id ∈ prev.tail, id < a.length :=
        fun id hid => hv id (List.mem_of_mem_tail hid)
      obtain ⟨hplen, hpval, hpvalid⟩ := ih a prev.tail (prev.headD 0) false hv2
      obtain ⟨hle, hvalp, _⟩ :=
        processComps_grow cs a prev.tail (prev.headD 0) false
      refine ⟨by simp only [List.length_cons, hplen], ?_, ?_⟩
      · intro i hi
        cases i with
        | zero =>
          simp only [List.getD_cons_zero]
          rw [hvalp _ hid0, hval0h]
        | succ j =>
          simp only [List.getD_cons_succ]
          exact hpval j (by simpa using hi)
      · intro id hid
        rcases List.mem_cons.mp hid with h | h
        · subst h
          omega
        · exact hpvalid id h

/-- When the previous node path matches the components exactly (same length,
same values, valid indices), reprocessing changes nothing: the arena is
untouched and the same node path is returned. -/
theorem processComps_noop (cs : List (List Char)) :
    ∀ (a : Arena) (prev : List Nat) (parent : Nat),
      prev.length = cs.length →
      (∀ i, i < cs.length →
        (nodeAt a (prev.getD i 0)).value = cs.getD i []) →
      processComps a prev parent false cs = (a, prev) := by
  induction cs with
  | nil =>
    intro a prev parent hlen hval
    rw [processComps_nil]
    have : prev = [] := List.length_eq_zero.mp (by simpa using hlen)
    rw [this]
  | cons c cs ih =>
    intro a prev parent hlen hval
    cases prev with
    | nil => simp at hlen
    | cons p0 ps =>
      have hc : divTest a (p0 :: ps) false c = false := by
        unfold divTest
        simp only [List.head?_cons, Bool.false_or]
        have := hval 0 (by simp)
        simp only [List.getD_cons_zero] at this
        simp [this]
      rw [processComps_cons_false a (p0 :: ps) parent false c cs hc]
      have hrec : processComps a ps p0 false cs = (a, ps) := by
        refine ih a ps p0 (by simpa using hlen) ?_
        intro i hi
        have := hval (i + 1) (by simpa using hi)
        simpa using this
      simp only [List.tail_cons, List.headD_cons, hrec]

/-- Prefix sharing: if the previous node path carries values `vs` and the new
components agree with `vs` on the first `k` positions, the first `k` nodes of
the new path are exactly the first `k` nodes of the previous path. -/
theorem processComps_reuse (k : Nat) :
    ∀ (cs vs : List (List Char)) (prev : List Nat) (a : Arena) (parent : Nat),
      prev.length = vs.length →
      (∀ i, i < prev.length →
        (nodeAt a (prev.getD i 0)).value = vs.getD i []) →
      vs.take k = cs.take k →
      (processComps a prev parent false cs).2.take k = prev.take k := by
  induction k with
  | zero => intro cs vs prev a parent _ _ _; simp
  | succ k ih =>
    intro cs vs prev a parent hlen hvals hpref
    cases cs with
    | nil =>
      have hvs : vs = [] := by
        simpa using hpref
      have hprev : prev = [] := by
        subst hvs
        exact List.length_eq_zero.mp (by simpa using hlen)
      subst hprev
      rw [processComps_nil]
    | cons c cs =>
      cases vs with
      | nil =>
        exact absurd hpref (by simp)
      | cons v vs =>
        have hv0 : v = c := by
          have := hpref
          simp only [List.take_succ_cons, List.cons.injEq] at this
          exact this.1
        cases prev with
        | nil => simp at hlen
        | cons p0 ps =>
          have hval0 : (nodeAt a p0).value = c := by
            have := hvals 0 (by simp)
            simpa [hv0] using this
          have hc : divTest a (p0 :: ps) false c = false := by
            unfold divTest
            simp [hval0]
          rw [processComps_false_snd a (p0 :: ps) parent false c cs hc]
          simp only [List.tail_cons, List.headD_cons, List.take_succ_cons,
            List.cons.injEq, true_and]
          refine ih cs vs ps a p0 (by simpa using hlen) ?_ ?_
          · intro i hi
            have := hvals (i + 1) (by simpa using hi)
            simpa using this
          · have := hpref
            simp only [List.take_succ_cons, List.cons.injEq] at this
            exact this.2

/-- Invariant preserved by the builder loop: all indices of the previous node
path are in range and the arena holds at least the ROOT node. -/
theorem foldl_treeStep_inv (lines : List (List Char)) :
    ∀ st : Arena × List Nat,
      ((∀ id ∈ st.2, id < st.1.length) ∧ 1 ≤ st.1.length) →
      ((∀ id ∈ (lines.foldl treeStep st).2,
          id < (lines.foldl treeStep st).1.length) ∧
        1 ≤ (lines.foldl treeStep st).1.length) := by
  induction lines with
  | nil => intro st h; exact h
  | cons l ls ih =>
    intro st h
    rw [List.foldl_cons]
    refine ih (treeStep st l) ?_
    obtain ⟨hvalid, hroot⟩ := h
    constructor
    · exact (processComps_path_spec (split_line l) st.1 st.2 0 false hvalid).2.2
    · have := (processComps_grow (split_line l) st.1 st.2 0 false).1
      unfold treeStep
      omega

theorem buildState_valid (lines : List (List Char)) :
    (∀ id ∈ (buildState lines).2, id < (buildState lines).1.length) ∧
    1 ≤ (buildState lines).1.length := by
  unfold buildState
  refine foldl_treeStep_inv lines ([rootNode], []) ?_
  constructor
  · intro id hid
    simp at hid
  · simp

theorem buildState_append_one (lines : List (List Char)) (l : List Char) :
    buildState (lines ++ [l]) = treeStep (buildState lines) l := by
  unfold buildState
  rw [List.foldl_append]
  rfl

/-- Processing the same line twice in a row is the same as processing it
once: the whole builder state is unchanged by the repetition. -/
theorem treeStep_idem (s : Arena × List Nat)
    (hvalid : ∀ id ∈ s.2, id < s.1.length) (l : List Char) :
    treeStep (treeStep s l) l = treeStep s l := by
  obtain ⟨hlen, hvals, _⟩ :=
    processComps_path_spec (split_line l) s.1 s.2 0 false hvalid
  unfold treeStep
  have hno := processComps_noop (split_line l)
    (processComps s.1 s.2 0 false (split_line l)).1
    (processComps s.1 s.2 0 false (split_line l)).2 0 hlen hvals
  rw [hno]

theorem divTest_of_div (a : Arena) (prev : List Nat) (c : List Char) :
    divTest a prev true c = true := by
  unfold divTest
  simp

/-- Fully diverged processing: every component allocates a fresh node, with
consecutive indices starting at the old arena size, carrying the component
values, each linked as a child of the previous fresh node (the first one as a
child of `parent`). -/
theorem processComps_div (cs : List (List Char)) :
    ∀ (a : Arena) (prev : List Nat) (parent : Nat),
      parent < a.length →
      (∀ j, j < cs.length →
        (processComps a prev parent true cs).2.getD j 0 = a.length + j) ∧
      (∀ j, j < cs.length →
        (nodeAt (processComps a prev parent true cs).1 (a.length + j)).value =
          cs.getD j []) ∧
      (∀ j, j < cs.length →
        (a.length + j) ∈
          (nodeAt (processComps a prev parent true cs).1
            (if j = 0 then parent else a.length + (j - 1))).children) := by
  induction cs with
  | nil =>
    intro a prev parent hp
    exact ⟨fun j hj => absurd hj (by simp), fun j hj => absurd hj (by simp),
      fun j hj => absurd hj (by simp)⟩
  | cons c cs ih =>
    intro a prev parent hp
    have hc : divTest a prev true c = true := divTest_of_div a prev c
    rw [processComps_true_fst a prev parent true c cs hc,
      processComps_true_snd a prev parent true c cs hc]
    set a2 := appendChild (a ++ [⟨c, none, []⟩]) parent a.length with ha2
    have hlen2 : a2.length = a.length + 1 := by
      rw [ha2, length_appendChild, List.length_append]
      simp
    have hp2 : a.length < a2.length := by omega
    obtain ⟨hgd, hgv, hgm⟩ := ih a2 prev.tail a.length hp2
    obtain ⟨hle, hval, hmono⟩ := processComps_grow cs a2 prev.tail a.length true
    have hval_new : (nodeAt a2 a.length).value = c := by
      rw [ha2, nodeAt_appendChild_value, nodeAt_append_self]
    have hmem_new : a.length ∈ (nodeAt a2 parent).children := by
      rw [ha2]
      refine appendChild_mem_children _ _ ?_
      rw [List.length_append]
      omega
    refine ⟨?_, ?_, ?_⟩
    · intro j hj
      cases j with
      | zero => simp
      | succ j' =>
        simp only [List.getD_cons_succ]
        rw [hgd j' (by simpa using hj)]
        omega
    · intro j hj
      cases j with
      | zero =>
        simp only [List.getD_cons_zero, Nat.add_zero]
        rw [hval a.length (by omega), hval_new]
      | succ j' =>
        simp only [List.getD_cons_succ]
        have := hgv j' (by simpa using hj)
        have harith : a2.length + j' = a.length + (j' + 1) := by omega
        rw [harith] at this
        exact this
    · intro j hj
      cases j with
      | zero =>
        simp only [if_pos rfl, Nat.add_zero]
        exact hmono parent a.length hmem_new
      | succ j' =>
        have := hgm j' (by simpa using hj)
        have harith : a2.length + j' = a.length + (j' + 1) := by omega
        rw [harith] at this
        have hidx : (if j' = 0 then a.length else a2.length + (j' - 1)) =
            a.length + (j' + 1 - 1) := by
          cases j' with
          | zero => simp
          | succ j'' =>
            rw [if_neg (Nat.succ_ne_zero j''), hlen2]
            omega
        rw [hidx] at this
        simpa using this

theorem divergedAt_cons (a : Arena) (p : Nat) (ps : List Nat) (c : List Char)
    (cs : List (List Char)) (i : Nat) :
    divergedAt a (p :: ps) (c :: cs) (i + 1) ↔ divergedAt a ps cs i := by
  unfold divergedAt
  simp

theorem not_divergedAt_zero (a : Arena) (prev : List Nat)
    (cs : List (List Char)) (h : ¬ divergedAt a prev cs 0) :
    0 < prev.length ∧
      (nodeAt a (prev.getD 0 0)).value = cs.getD 0 [] := by
  unfold divergedAt at h
  push_neg at h
  exact ⟨by omega, h.2⟩

/-- Monotone divergence: processing components `cs` against previous path
`prev` with first divergence at position `d`, every position before `d`
reuses the previous node and every position from `d` on allocates a fresh
node with consecutive arena indices, carrying the component value and linked
under the previous position's node. -/
theorem processComps_step (d : Nat) :
    ∀ (cs : List (List Char)) (prev : List Nat) (a : Arena) (parent : Nat),
      (∀ id ∈ prev, id < a.length) →
      parent < a.length →
      divergedAt a prev cs d →
      (∀ i, i < d → ¬ divergedAt a prev cs i) →
      (∀ i, i < d → i < cs.length →
        (processComps a prev parent false cs).2.getD i 0 = prev.getD i 0) ∧
      (∀ j, d ≤ j → j < cs.length →
        (processComps a prev parent false cs).2.getD j 0 = a.length + (j - d) ∧
        (nodeAt (processComps a prev parent false cs).1
          (a.length + (j - d))).value = cs.getD j [] ∧
        (a.length + (j - d)) ∈
          (nodeAt (processComps a prev parent false cs).1
            (if j = 0 then parent
             else if j = d then prev.getD (d - 1) 0
             else a.length + (j - d - 1))).children) := by
  induction d with
  | zero =>
    intro cs prev a parent hv hp hd hnd
    cases cs with
    | nil =>
      exact ⟨fun i hi hi2 => absurd hi2 (by simp),
        fun j hj hj2 => absurd hj2 (by simp)⟩
    | cons c cs =>
      have hc : divTest a prev false c = true := by
        unfold divergedAt at hd
        unfold divTest
        cases hh : prev.head? with
        | none => simp
        | some id0 =>
          have hid0 : prev.getD 0 0 = id0 := by
            cases prev with
            | nil => simp at hh
            | cons p ps => simp at hh; simp [hh]
          rcases hd with h | h
          · cases prev with
            | nil => simp at hh
            | cons p ps => simp at h
          · rw [hid0] at h
            simp only [List.getD_cons_zero] at h
            simp [h]
      rw [processComps_true_fst a prev parent false c cs hc,
        processComps_true_snd a prev parent false c cs hc]
      set a2 := appendChild (a ++ [⟨c, none, []⟩]) parent a.length with ha2
      have hlen2 : a2.length = a.length + 1 := by
        rw [ha2, length_appendChild, List.length_append]
        simp
      obtain ⟨hgd, hgv, hgm⟩ := processComps_div cs a2 prev.tail a.length
        (by omega)
      obtain ⟨hle, hval, hmono⟩ := processComps_grow cs a2 prev.tail a.length true
      have hval_new : (nodeAt a2 a.length).value = c := by
        rw [ha2, nodeAt_appendChild_value, nodeAt_append_self]
      have hmem_new : a.length ∈ (nodeAt a2 parent).children := by
        rw [ha2]
        refine appendChild_mem_children _ _ ?_
        rw [List.length_append]
        omega
      refine ⟨fun i hi _ => absurd hi (by omega), ?_⟩
      intro j _ hj
      cases j with
      | zero =>
        refine ⟨by simp, ?_, ?_⟩
        · simp only [Nat.sub_zero, Nat.add_zero, List.getD_cons_zero]
          rw [hval a.length (by omega), hval_new]
        · simp only [if_pos rfl, Nat.sub_zero, Nat.add_zero]
          exact hmono parent a.length hmem_new
      | succ j' =>
        have hj' : j' < cs.length := by simpa using hj
        refine ⟨?_, ?_, ?_⟩
        · simp only [List.getD_cons_succ]
          rw [hgd j' hj']
          omega
        · simp only [Nat.sub_zero, List.getD_cons_succ]
          have := hgv j' hj'
          have harith : a2.length + j' = a.length + (j' + 1) := by omega
          rw [harith] at this
          exact this
        · have := hgm j' hj'
          have harith : a2.length + j' = a.length + (j' + 1) := by omega
          rw [harith] at this
          have hidx : (if j' = 0 then a.length else a2.length + (j' - 1)) =
              a.length + (j' + 1 - 0 - 1) := by
            cases j' with
            | zero => simp
            | succ j'' =>
              rw [if_neg (Nat.succ_ne_zero j''), hlen2]
              omega
          rw [hidx] at this
          have hif : (if j' + 1 = 0 then parent
              else if j' + 1 = 0 then prev.getD (0 - 1) 0
              else a.length + (j' + 1 - 0 - 1)) =
              a.length + (j' + 1 - 0 - 1) := by
            rw [if_neg (Nat.succ_ne_zero j'), if_neg (Nat.succ_ne_zero j')]
          rw [hif]
          simpa using this
  | succ d' ih =>
    intro cs prev a parent hv hp hd hnd
    cases cs with
    | nil =>
      exact ⟨fun i hi hi2 => absurd hi2 (by simp),
        fun j hj hj2 => absurd hj2 (by simp)⟩
    | cons c cs =>
      obtain ⟨hplen, hpval0⟩ := not_divergedAt_zero a prev (c :: cs)
        (hnd 0 (by omega))
      cases prev with
      | nil => simp at hplen
      | cons p0 ps =>
        simp only [List.getD_cons_zero, List.getD_cons_zero] at hpval0
        have hc : divTest a (p0 :: ps) false c = false := by
          unfold divTest
          simp only [List.head?_cons, Bool.false_or]
          simp [hpval0]
        rw [processComps_false_fst a (p0 :: ps) parent false c cs hc,
          processComps_false_snd a (p0 :: ps) parent false c cs hc]
        simp only [List.tail_cons, List.headD_cons]
        have hv' : ∀ id ∈ ps, id < a.length :=
          fun id hid => hv id (List.mem_cons_of_mem p0 hid)
        have hp0 : p0 < a.length := hv p0 (List.mem_cons_self p0 ps)
        have hd' : divergedAt a ps cs d' :=
          (divergedAt_cons a p0 ps c cs d').mp hd
        have hnd' : ∀ i, i < d' → ¬ divergedAt a ps cs i := by
          intro i hi
          intro hdai
          exact hnd (i + 1) (by omega) ((divergedAt_cons a p0 ps c cs i).mpr hdai)
        obtain ⟨hre, hdiv⟩ := ih cs ps a p0 hv' hp0 hd' hnd'
        refine ⟨?_, ?_⟩
        · intro i hi hilen
          cases i with
          | zero => simp
          | succ i' =>
            simp only [List.getD_cons_succ]
            exact hre i' (by omega) (by simpa using hilen)
        · intro j hdj hj
          cases j with
          | zero => omega
          | succ j' =>
            have hdj' : d' ≤ j' := by omega
            have hj' : j' < cs.length := by simpa using hj
            obtain ⟨h1, h2, h3⟩ := hdiv j' hdj' hj'
            have harith : j' + 1 - (d' + 1) = j' - d' := by omega
            refine ⟨?_, ?_, ?_⟩
            · simp only [List.getD_cons_succ]
              rw [h1, harith]
            · rw [harith]
              simpa using h2
            · rw [harith]
              have hif : (if j' + 1 = 0 then parent
                  else if j' + 1 = d' + 1 then (p0 :: ps).getD (d' + 1 - 1) 0
                  else a.length + (j' - d' - 1)) =
                  (if j' = 0 then p0
                   else if j' = d' then ps.getD (d' - 1) 0
                   else a.length + (j' - d' - 1)) := by
                rw [if_neg (Nat.succ_ne_zero j')]
                by_cases hjd : j' = d'
                · rw [if_pos (by omega)]
                  subst hjd
                  cases j' with
                  | zero => simp
                  | succ j'' =>
                    rw [if_neg (Nat.succ_ne_zero j''), if_pos rfl]
                    simp only [Nat.add_sub_cancel, List.getD_cons_succ]
                · rw [if_neg (by omega), if_neg hjd]
                  rw [if_neg (by omega)]
              rw [hif]
              exact h3



theorem getLastD_append_ne {α : Type} (xs : List α) {ys : List α} (d : α)
    (h : ys ≠ []) : (xs ++ ys).getLastD d = ys.getLastD d := by
  rw [List.getLastD_eq_getLast?, List.getLastD_eq_getLast?, List.getLast?_append]
  cases hy : ys.getLast? with
  | none => exact absurd (List.getLast?_eq_none_iff.mp hy) h
  | some y => rfl

theorem dropLast_cons_ne {α : Type} (x : α) {l : List α} (h : l ≠ []) :
    (x :: l).dropLast = x :: l.dropLast := by
  have : x :: l = [x] ++ l := rfl
  rw [this, List.dropLast_append_of_ne_nil [x] h]
  rfl

theorem getLastD_cons_cons {α : Type} (x y : α) (l : List α) (d : α) :
    (x :: y :: l).getLastD d = (y :: l).getLastD d := by
  rw [List.getLastD_eq_getLast?, List.getLastD_eq_getLast?,
    List.getLast?_cons_cons]

theorem splitCh_cons_pos (sep : Char) {c : Char} (cs : List Char)
    (h : c = sep) : splitCh sep (c :: cs) = [] :: splitCh sep cs := by
  simp [splitCh, h]

theorem splitCh_cons_neg (sep : Char) {c : Char} {cs f0 : List Char}
    {fs : List (List Char)} (h : ¬ c = sep)
    (hcs : splitCh sep cs = f0 :: fs) :
    splitCh sep (c :: cs) = (c :: f0) :: fs := by
  simp [splitCh, h, hcs]

theorem getLastD_cons_ne {α : Type} (x : α) {l : List α} (d : α)
    (h : l ≠ []) : (x :: l).getLastD d = l.getLastD d := by
  have hx : x :: l = [x] ++ l := rfl
  rw [hx, getLastD_append_ne [x] d h]

/-- Splitting a concatenation: the fields of `buffer ++ r` are the complete
fields of `buffer` followed by the fields of its trailing partial field glued
onto `r`. -/
theorem splitCh_append_ext (sep : Char) (buffer : List Char) :
    ∀ r : List Char,
      splitCh sep (buffer ++ r) =
        (splitCh sep buffer).dropLast ++
          splitCh sep ((splitCh sep buffer).getLastD [] ++ r) := by
  induction buffer with
  | nil => intro r; simp [splitCh]
  | cons c cs ih =>
    intro r
    rw [List.cons_append]
    by_cases hc : c = sep
    · rw [splitCh_cons_pos sep (cs ++ r) hc, splitCh_cons_pos sep cs hc,
        ih r, dropLast_cons_ne ([] : List Char) (splitCh_ne_nil sep cs),
        getLastD_cons_ne ([] : List Char) [] (splitCh_ne_nil sep cs)]
      rfl
    · cases hcs : splitCh sep cs with
      | nil => exact absurd hcs (splitCh_ne_nil sep cs)
      | cons f0 fs =>
        cases fs with
        | nil =>
          have h1 : splitCh sep (cs ++ r) = splitCh sep (f0 ++ r) := by
            rw [ih r, hcs]
            rfl
          cases hf : splitCh sep (f0 ++ r) with
          | nil => exact absurd hf (splitCh_ne_nil sep _)
          | cons g0 gs =>
            rw [splitCh_cons_neg sep hc (h1.trans hf),
              splitCh_cons_neg sep hc hcs]
            have h2 : splitCh sep ((c :: f0) ++ r) = (c :: g0) :: gs := by
              rw [List.cons_append]
              exact splitCh_cons_neg sep hc hf
            rw [List.dropLast_single]
            have h3 : ([c :: f0] : List (List Char)).getLastD [] = c :: f0 := rfl
            rw [h3, List.nil_append, h2]
        | cons f1 fs1 =>
          have h1 : splitCh sep (cs ++ r) =
              f0 :: ((f1 :: fs1).dropLast ++
                splitCh sep ((f1 :: fs1).getLastD [] ++ r)) := by
            rw [ih r, hcs,
              dropLast_cons_ne f0 (l := f1 :: fs1) (by simp),
              getLastD_cons_ne f0 [] (l := f1 :: fs1) (by simp)]
            rfl
          rw [splitCh_cons_neg sep hc h1, splitCh_cons_neg sep hc hcs,
            dropLast_cons_ne (c :: f0) (l := f1 :: fs1) (by simp),
            getLastD_cons_ne (c :: f0) [] (l := f1 :: fs1) (by simp)]
          rfl

theorem splitCh_singleton (sep : Char) :
    ∀ (l f : List Char), splitCh sep l = [f] → f = l := by
  intro l
  induction l with
  | nil => intro f h; simp [splitCh] at h; simp [h]
  | cons c cs ih =>
    intro f h
    by_cases hc : c = sep
    · rw [splitCh_cons_pos sep cs hc] at h
      cases hcs : splitCh sep cs with
      | nil => exact absurd hcs (splitCh_ne_nil sep cs)
      | cons f0 fs => rw [hcs] at h; simp at h
    · cases hcs : splitCh sep cs with
      | nil => exact absurd hcs (splitCh_ne_nil sep cs)
      | cons f0 fs =>
        rw [splitCh_cons_neg sep hc hcs] at h
        simp only [List.cons.injEq] at h
        obtain ⟨hf, hfs⟩ := h
        subst hfs
        rw [← hf, ih f0 hcs]

/-- A non-empty buffer ends in the separator iff its last split field is
empty. -/
theorem ends_sep_iff_last_field_nil (sep : Char) :
    ∀ (buffer : List Char), buffer ≠ [] →
      (buffer.getLast? = some sep ↔ (splitCh sep buffer).getLastD [] = []) := by
  intro buffer
  induction buffer with
  | nil => intro h; exact absurd rfl h
  | cons c cs ih =>
    intro _
    cases cs with
    | nil =>
      by_cases hc : c = sep
      · subst hc
        rw [splitCh_cons_pos c [] rfl]
        simp [splitCh]
      · rw [splitCh_cons_neg sep hc (show splitCh sep [] = [[]] from rfl)]
        simp [hc]
    | cons d ds =>
      have hne : (d :: ds) ≠ ([] : List Char) := by simp
      have lhs_shift : (c :: d :: ds).getLast? = (d :: ds).getLast? :=
        List.getLast?_cons_cons
      by_cases hc : c = sep
      · rw [lhs_shift, splitCh_cons_pos sep (d :: ds) hc,
          getLastD_cons_ne ([] : List Char) [] (splitCh_ne_nil sep (d :: ds))]
        exact ih hne
      · cases hcs : splitCh sep (d :: ds) with
        | nil => exact absurd hcs (splitCh_ne_nil sep (d :: ds))
        | cons f0 fs =>
          rw [lhs_shift, splitCh_cons_neg sep hc hcs]
          cases fs with
          | nil =>
            have hf0 : f0 = d :: ds := splitCh_singleton sep (d :: ds) f0 hcs
            constructor
            · intro hlast
              exfalso
              have hmemlast : sep ∈ d :: ds := by
                have := List.mem_of_mem_getLast? hlast
                simpa using this
              have : sep ∉ f0 :=
                splitCh_mem_not_sep (hcs ▸ List.mem_cons_self f0 [])
              rw [hf0] at this
              exact this hmemlast
            · intro hlast
              simp at hlast
          | cons f1 fs1 =>
            rw [getLastD_cons_cons]
            have := ih hne
            rw [hcs, getLastD_cons_cons] at this
            exact this

/-- Shifting complete fields out of the buffer commutes with computing the
delimited fields of the rest of the stream. -/
theorem delimited_shift (sep : Char) (buffer r : List Char) :
    (splitCh sep buffer).dropLast ++
      delimitedFields sep ((splitCh sep buffer).getLastD [] ++ r) =
    delimitedFields sep (buffer ++ r) := by
  unfold delimitedFields
  rw [splitCh_append_ext sep buffer r]
  have hne : splitCh sep ((splitCh sep buffer).getLastD [] ++ r) ≠ [] :=
    splitCh_ne_nil _ _
  rw [getLastD_append_ne _ [] hne, List.dropLast_append_of_ne_nil _ hne]
  by_cases h : (splitCh sep ((splitCh sep buffer).getLastD [] ++ r)).getLastD [] = []
  · rw [if_pos h, if_pos h]
  · rw [if_neg h, if_neg h, List.append_assoc]

theorem r0go_at_end (sep : Char) (buffer : List Char) (f : List Char)
    (fs : List (List Char)) :
    r0go sep [] buffer (f :: fs) =
      if buffer.getLast? = some sep then [] else [(f :: fs).getLastD []] := rfl

theorem r0go_cons (sep : Char) {b : List Char} (bs : List (List Char))
    (buffer : List Char) (f : List Char) (fs : List (List Char))
    (hb : b ≠ []) :
    r0go sep (b :: bs) buffer (f :: fs) =
      (splitCh sep (if buffer.getLast? = some sep then b
        else (f :: fs).getLastD [] ++ b)).dropLast ++
      r0go sep bs (if buffer.getLast? = some sep then b
        else (f :: fs).getLastD [] ++ b)
        (splitCh sep (if buffer.getLast? = some sep then b
          else (f :: fs).getLastD [] ++ b)) := by
  simp only [r0go, if_neg hb]

/-- Main invariant of the `readline0` loop: from a state whose fields are the
split of the buffer, the fields still to be yielded complete the delimited
fields of the whole remaining stream. -/
theorem r0go_spec (sep : Char) :
    ∀ (bs : List (List Char)) (buffer : List Char),
      (∀ b ∈ bs, b ≠ []) → buffer ≠ [] →
      (splitCh sep buffer).dropLast ++
          r0go sep bs buffer (splitCh sep buffer) =
        delimitedFields sep (buffer ++ listJoin bs) := by
  intro bs
  induction bs with
  | nil =>
    intro buffer _ hbuf
    cases hfs : splitCh sep buffer with
    | nil => exact absurd hfs (splitCh_ne_nil sep buffer)
    | cons f fs =>
      rw [r0go_at_end]
      have hiff := ends_sep_iff_last_field_nil sep buffer hbuf
      unfold delimitedFields
      simp only [listJoin, List.append_nil]
      by_cases hend : buffer.getLast? = some sep
      · rw [if_pos hend, if_pos (hfs ▸ hiff.mp hend), List.append_nil, hfs]
      · have hlast : ¬ (splitCh sep buffer).getLastD [] = [] :=
          fun h => hend (hiff.mpr h)
        rw [if_neg hend, if_neg hlast, hfs]
  | cons b bs ih =>
    intro buffer hbs hbuf
    have hb : b ≠ [] := hbs b (List.mem_cons_self b bs)
    cases hfs : splitCh sep buffer with
    | nil => exact absurd hfs (splitCh_ne_nil sep buffer)
    | cons f fs =>
      rw [r0go_cons sep bs buffer f fs hb]
      have hbuf2 : (if buffer.getLast? = some sep then b
          else (f :: fs).getLastD [] ++ b) =
          (splitCh sep buffer).getLastD [] ++ b := by
        by_cases hend : buffer.getLast? = some sep
        · rw [if_pos hend,
            (ends_sep_iff_last_field_nil sep buffer hbuf).mp hend]
          rfl
        · rw [if_neg hend, hfs]
      rw [hbuf2]
      have hne2 : (splitCh sep buffer).getLastD [] ++ b ≠ [] := by
        intro h
        exact hb (List.append_eq_nil.mp h).2
      have hIH := ih ((splitCh sep buffer).getLastD [] ++ b)
        (fun x hx => hbs x (List.mem_cons_of_mem b hx)) hne2
      rw [hIH]
      have hjoin : listJoin (b :: bs) = b ++ listJoin bs := rfl
      rw [hjoin, ← hfs,
        List.append_assoc ((splitCh sep buffer).getLastD []) b (listJoin bs)]
      exact delimited_shift sep buffer (b ++ listJoin bs)

/-- For any chunking of the stream into non-empty blocks, `readline0` yields
exactly the delimited fields of the whole stream, and iteration then ends in
the `RuntimeError` produced by the trailing `raise StopIteration`. -/
theorem readline0_spec (sep : Char) (blocks : List (List Char))
    (hb : ∀ b ∈ blocks, b ≠ []) :
    (readline0 sep blocks).1 = delimitedFields sep (listJoin blocks) ∧
    (readline0 sep blocks).2 = GenEnd.runtimeError := by
  refine ⟨?_, rfl⟩
  unfold readline0
  cases blocks with
  | nil =>
    simp only [r0go, listJoin]
    unfold delimitedFields
    simp [splitCh]
  | cons b bs =>
    have hbne : b ≠ [] := hb b (List.mem_cons_self b bs)
    have hstep : r0go sep (b :: bs) [] [] =
        (splitCh sep b).dropLast ++ r0go sep bs b (splitCh sep b) := by
      simp only [r0go, if_neg hbne]
    rw [hstep]
    have hjoin : listJoin (b :: bs) = b ++ listJoin bs := rfl
    rw [hjoin]
    exact r0go_spec sep bs b (fun x hx => hb x (List.mem_cons_of_mem b hx)) hbne

/-- Behaviour of the response loop when the response lines pair up exactly
with the batch (one non-artifact line per node): it errs iff some
non-artifact line fails to parse, and on success it returns the batch
decorated line by line. -/
theorem ppLoop_spec
    (parse : List Char → Option (Option (List Char) × List Char)) :
    ∀ (ls : List (List Char)) (nodes : List PyNode),
      (ls.filter (fun l => !(isResetArtifact l))).length = nodes.length →
      ((ppLoop parse ls nodes = Except.error () ↔
        ∃ l ∈ ls, isResetArtifact l = false ∧ parse l = none) ∧
       (∀ r, ppLoop parse ls nodes = Except.ok r →
        r = List.zipWith (decorateNode parse) nodes
          (ls.filter (fun l => !(isResetArtifact l))))) := by
  intro ls
  induction ls with
  | nil =>
    intro nodes hcount
    have hb : nodes = [] := by
      simpa using (List.length_eq_zero.mp (by simpa using hcount.symm))
    subst hb
    refine ⟨by simp [ppLoop], ?_⟩
    intro r hr
    simp only [ppLoop] at hr
    cases hr
    rfl
  | cons l ls ih =>
    intro nodes hcount
    cases hart : isResetArtifact l with
    | true =>
      have hfil : (l :: ls).filter (fun x => !(isResetArtifact x)) =
          ls.filter (fun x => !(isResetArtifact x)) := by
        simp [List.filter, hart]
      rw [hfil] at hcount
      obtain ⟨iherr, ihok⟩ := ih nodes hcount
      have hstep : ppLoop parse (l :: ls) nodes = ppLoop parse ls nodes := by
        simp [ppLoop, hart]
      constructor
      · rw [hstep, iherr]
        constructor
        · intro h
          obtain ⟨x, hx, h2⟩ := h
          exact ⟨x, List.mem_cons_of_mem l hx, h2⟩
        · rintro ⟨x, hx, h2, h3⟩
          rcases List.mem_cons.mp hx with h | h
          · subst h
            rw [hart] at h2
            cases h2
          · exact ⟨x, h, h2, h3⟩
      · intro r hr
        rw [hstep] at hr
        rw [hfil]
        exact ihok r hr
    | false =>
      have hfil : (l :: ls).filter (fun x => !(isResetArtifact x)) =
          l :: ls.filter (fun x => !(isResetArtifact x)) := by
        simp [List.filter, hart]
      rw [hfil] at hcount
      cases nodes with
      | nil => simp at hcount
      | cons n ns =>
        have hcount' : (ls.filter (fun x => !(isResetArtifact x))).length =
            ns.length := by simpa using hcount
        obtain ⟨iherr, ihok⟩ := ih ns hcount'
        cases hp : parse l with
        | none =>
          have hstep : ppLoop parse (l :: ls) (n :: ns) = Except.error () := by
            simp [ppLoop, hart, hp]
          constructor
          · rw [hstep]
            constructor
            · intro _
              exact ⟨l, List.mem_cons_self l ls, hart, hp⟩
            · intro _
              rfl
          · intro r hr
            rw [hstep] at hr
            cases hr
        | some cv =>
          cases hrec : ppLoop parse ls ns with
          | error e =>
            have hstep : ppLoop parse (l :: ls) (n :: ns) =
                Except.error e := by
              simp [ppLoop, hart, hp, hrec]
            cases e
            constructor
            · rw [hstep]
              constructor
              · intro _
                obtain ⟨x, hx, h2⟩ := iherr.mp hrec
                exact ⟨x, List.mem_cons_of_mem l hx, h2⟩
              · intro _
                rfl
            · intro r hr
              rw [hstep] at hr
              cases hr
          | ok rest =>
            have hstep : ppLoop parse (l :: ls) (n :: ns) =
                Except.ok ({ n with color := cv.1, value := cv.2 } :: rest) := by
              simp [ppLoop, hart, hp, hrec]
            constructor
            · rw [hstep]
              simp only [List.mem_cons]
              constructor
              · intro h
                cases h
              · rintro ⟨x, hx, h2, h3⟩
                rcases hx with h | h
                · subst h
                  rw [hp] at h3
                  cases h3
                · exact absurd hrec (by
                    rw [iherr.symm.mp ⟨x, h, h2, h3⟩]
                    simp)
            · intro r hr
              rw [hstep] at hr
              cases hr
              rw [hfil]
              have hrest := ihok rest hrec
              rw [List.zipWith_cons_cons, ← hrest]
              have : decorateNode parse n l =
                  { n with color := cv.1, value := cv.2 } := by
                unfold decorateNode
                rw [hp]
              rw [this]

theorem buildState_append (xs ys : List (List Char)) :
    buildState (xs ++ ys) = ys.foldl treeStep (buildState xs) := by
  unfold buildState
  rw [List.foldl_append]

/-- C7: the two root sentinels differ from each other; `split_line` returns
the non-empty slash-free literal segments, possibly preceded by one sentinel;
and no literal segment ever equals a sentinel (each literal is non-empty and
contains no separator, while both sentinels are made of separators). -/
theorem c7_sentinels_distinct_from_literals :
    SLASH ≠ SLASHSLASH ∧
    (∀ p, split_line p = literal_components p ∨
      split_line p = SLASH :: literal_components p ∨
      split_line p = SLASHSLASH :: literal_components p) ∧
    (∀ p c, c ∈ literal_components p →
      c ≠ [] ∧ '/' ∉ c ∧ c ≠ SLASH ∧ c ≠ SLASHSLASH) := by
  refine ⟨by decide, split_line_shape, ?_⟩
  intro p c hc
  exact literal_components_spec p c hc

theorem c7_sentinels_distinct_from_literals_witness :
    ("a").toList ≠ [] ∧ '/' ∉ ("a").toList ∧
    ("a").toList ≠ SLASH ∧ ("a").toList ≠ SLASHSLASH :=
  c7_sentinels_distinct_from_literals.2.2 (("a/b").toList) (("a").toList)
    (by decide)

/-- C3 counterexample: a line with three leading separators is NOT treated as
a normal relative path — `split_line '///a/b'` still emits a root sentinel
(the single-slash one), so the claim's "no root sentinel at all" is false. -/
theorem c3_three_slashes_counterexample :
    split_line (("///a/b").toList) =
      SLASH :: [("a").toList, ("b").toList] ∧
    split_line (("///a/b").toList) ≠ [("a").toList, ("b").toList] := by
  constructor
  · decide
  · decide

/-- C3 amended: exactly two leading separators give the `SLASHSLASH` sentinel
followed by the non-empty segments; exactly one gives the `SLASH` sentinel;
and three or more leading separators are treated like a single one — the
`SLASH` sentinel (never `SLASHSLASH`, and not a bare relative path). -/
theorem c3_split_line_amended (p : List Char) :
    (p.take 2 = SLASHSLASH ∧ p.take 3 ≠ ('/' :: SLASHSLASH) →
      split_line p = SLASHSLASH :: literal_components p) ∧
    (p.take 1 = SLASH ∧ p.take 2 ≠ SLASHSLASH →
      split_line p = SLASH :: literal_components p) ∧
    (p.take 3 = ('/' :: SLASHSLASH) →
      split_line p = SLASH :: literal_components p ∧
      (split_line p).head? ≠ some SLASHSLASH) := by
  refine ⟨?_, ?_, ?_⟩
  · intro h
    unfold split_line
    rw [if_pos h]
  · intro h
    unfold split_line
    rw [if_neg (fun hc => h.2 hc.1), if_pos h.1]
  · intro h
    have h1 : p.take 1 = SLASH := by
      have h2 : p.take 1 = (p.take 3).take 1 := by
        rw [List.take_take]
        norm_num
      rw [h2, h]
      decide
    have hsl : split_line p = SLASH :: literal_components p := by
      unfold split_line
      rw [if_neg (fun hc => hc.2 h), if_pos h1]
    refine ⟨hsl, ?_⟩
    rw [hsl]
    simp only [List.head?_cons, ne_eq, Option.some.injEq]
    decide

theorem c3_split_line_amended_witness :
    split_line (("//a").toList) =
      SLASHSLASH :: literal_components (("//a").toList) ∧
    split_line (("/a").toList) =
      SLASH :: literal_components (("/a").toList) ∧
    (split_line (("///a/b").toList) =
      SLASH :: literal_components (("///a/b").toList) ∧
     (split_line (("///a/b").toList)).head? ≠ some SLASHSLASH) :=
  ⟨(c3_split_line_amended (("//a").toList)).1 (by decide),
   (c3_split_line_amended (("/a").toList)).2.1 (by decide),
   (c3_split_line_amended (("///a/b").toList)).2.2 (by decide)⟩

/-- C1: when two consecutive input lines share a `k`-component prefix, the
first `k` entries of the later line's node path are the very same arena
indices (Python object references) as the earlier line's — shared prefixes
reuse nodes, so no duplicate equal-valued sibling is created for them. -/
theorem c1_shared_prefix_reference_identity (pre : List (List Char))
    (l1 l2 : List Char) (k : Nat)
    (hpref : (split_line l1).take k = (split_line l2).take k) :
    ((treeStep (treeStep (buildState pre) l1) l2).2).take k =
      ((treeStep (buildState pre) l1).2).take k := by
  obtain ⟨hlen, hvals, hvalid1⟩ :=
    processComps_path_spec (split_line l1) (buildState pre).1
      (buildState pre).2 0 false (buildState_valid pre).1
  unfold treeStep
  refine processComps_reuse k (split_line l2) (split_line l1)
    (processComps (buildState pre).1 (buildState pre).2 0 false
      (split_line l1)).2
    (processComps (buildState pre).1 (buildState pre).2 0 false
      (split_line l1)).1
    0 hlen ?_ hpref
  intro i hi
  exact hvals i (by omega)

theorem c1_shared_prefix_reference_identity_witness :
    ((treeStep (treeStep (buildState []) (("a/b").toList))
        (("a/c").toList)).2).take 1 =
      ((treeStep (buildState []) (("a/b").toList)).2).take 1 :=
  c1_shared_prefix_reference_identity [] (("a/b").toList) (("a/c").toList) 1
    (by decide)

/-- C2: while one line is processed against the previous node path, once the
first divergence happens at position `d` (no previous node there, or a
differing value), every later position `j` of the line gets a brand-new node
— its index is fresh (`old arena size + (j - d)`, beyond every pre-existing
index), it carries the component as value even when that component equals the
previous path's value at `j`, and it is appended as a child of the running
parent (the ROOT for `j = 0`, else the node at position `j - 1`). -/
theorem c2_monotonic_divergence (pre : List (List Char)) (line : List Char)
    (d j : Nat)
    (hd : divergedAt (buildState pre).1 (buildState pre).2 (split_line line) d)
    (hnd : ∀ i, i < d →
      ¬ divergedAt (buildState pre).1 (buildState pre).2 (split_line line) i)
    (hdj : d ≤ j) (hj : j < (split_line line).length) :
    ((treeStep (buildState pre) line).2).getD j 0 =
      (buildState pre).1.length + (j - d) ∧
    (nodeAt (treeStep (buildState pre) line).1
      (((treeStep (buildState pre) line).2).getD j 0)).value =
        (split_line line).getD j [] ∧
    ((treeStep (buildState pre) line).2).getD j 0 ∈
      (nodeAt (treeStep (buildState pre) line).1
        (if j = 0 then 0
         else ((treeStep (buildState pre) line).2).getD (j - 1) 0)).children := by
  obtain ⟨hvalid, hroot⟩ := buildState_valid pre
  obtain ⟨hre, hdiv⟩ := processComps_step d (split_line line)
    (buildState pre).2 (buildState pre).1 0 hvalid hroot hd hnd
  obtain ⟨h1, h2, h3⟩ := hdiv j hdj hj
  unfold treeStep
  refine ⟨h1, ?_, ?_⟩
  · rw [h1]
    exact h2
  · rw [h1]
    have hif : (if j = 0 then 0
        else (processComps (buildState pre).1 (buildState pre).2 0 false
          (split_line line)).2.getD (j - 1) 0) =
        (if j = 0 then 0
         else if j = d then (buildState pre).2.getD (d - 1) 0
         else (buildState pre).1.length + (j - d - 1)) := by
      by_cases h0 : j = 0
      · rw [if_pos h0, if_pos h0]
      · rw [if_neg h0, if_neg h0]
        by_cases hjd : j = d
        · rw [if_pos hjd]
          subst hjd
          exact hre (j - 1) (by omega) (by omega)
        · rw [if_neg hjd]
          obtain ⟨h1', _, _⟩ := hdiv (j - 1) (by omega) (by omega)
          rw [h1']
          congr 1
          omega
    rw [hif]
    exact h3

theorem c2_monotonic_divergence_witness :
    ((treeStep (buildState [("a/x/c").toList]) (("a/y/c").toList)).2).getD 2 0 =
      (buildState [("a/x/c").toList]).1.length + (2 - 1) ∧
    (nodeAt (treeStep (buildState [("a/x/c").toList]) (("a/y/c").toList)).1
      (((treeStep (buildState [("a/x/c").toList])
        (("a/y/c").toList)).2).getD 2 0)).value =
        (split_line (("a/y/c").toList)).getD 2 [] ∧
    ((treeStep (buildState [("a/x/c").toList]) (("a/y/c").toList)).2).getD 2 0 ∈
      (nodeAt (treeStep (buildState [("a/x/c").toList]) (("a/y/c").toList)).1
        (if 2 = 0 then 0
         else ((treeStep (buildState [("a/x/c").toList])
          (("a/y/c").toList)).2).getD (2 - 1) 0)).children :=
  c2_monotonic_divergence [("a/x/c").toList] (("a/y/c").toList) 1 2
    (by decide) (by decide) (by decide) (by decide)

/-- C10: feeding the builder the same line twice in immediate succession
yields exactly the same arena (same nodes, same values, same children) and
the same returned root as feeding it once — the duplicate merges entirely
into the nodes of the first occurrence. -/
theorem c10_duplicate_line_idempotent (pre post : List (List Char))
    (l : List Char) (skip_dot colorize : Bool) :
    tree_from_line_iter (pre ++ l :: l :: post) skip_dot colorize =
      tree_from_line_iter (pre ++ l :: post) skip_dot colorize := by
  have hb : buildState (pre ++ l :: l :: post) =
      buildState (pre ++ l :: post) := by
    rw [buildState_append, buildState_append, List.foldl_cons,
      List.foldl_cons, List.foldl_cons,
      treeStep_idem (buildState pre) (buildState_valid pre).1 l]
  unfold tree_from_line_iter
  rw [hb]

/-- C4 counterexample: for sorted input `a/b`, `a/c`, the narrow ASCII
renderer emits `a`, `|- b`, `` `- c `` — not the claimed
`` `-- a ``, `` ␣␣␣␣|-- b ``, `` ␣␣␣␣`-- c ``: the top-level node gets no
branch glyph at all (glyphs only appear at depth 2 and deeper), the children
get no leading indentation, and the ASCII glyphs are three characters wide
(`|- `, `` `- ``).  The claimed output differs whether or not a trailing
newline is intended. -/
theorem c4_narrow_render_counterexample :
    render_narrow STYLE_ASCII [("a/b").toList, ("a/c").toList] =
      ("a\n|- b\n`- c\n").toList ∧
    render_narrow STYLE_ASCII [("a/b").toList, ("a/c").toList] ≠
      ("`-- a\n    |-- b\n    `-- c\n").toList ∧
    render_narrow STYLE_ASCII [("a/b").toList, ("a/c").toList] ≠
      ("`-- a\n    |-- b\n    `-- c").toList := by
  refine ⟨by decide, by decide, by decide⟩

/-- C4 amended: for the input lines `a/b`, `a/c` the narrow ASCII renderer
produces exactly the three lines `a`, `|- b`, `` `- c ``: the sole top-level
node is printed on its own line without any branch glyph (branch and
continuation glyphs are only emitted for nodes at depth ≥ 2), it is not
collapsed since it has two children, and the children carry the tee glyph
`|- ` and the corner glyph `` `- `` with no leading continuation prefix. -/
theorem c4_narrow_render_amended :
    render_narrow STYLE_ASCII [("a/b").toList, ("a/c").toList] =
      ("a\n|- b\n`- c\n").toList := by
  decide

/-- C5 counterexample: the single input `a/b/c` renders as the single line
`a/b/c` with no leading corner glyph — branch glyphs are only printed at
depth ≥ 2, and the collapsed chain starts at the glyph-less top level, so the
claimed `` `-- a/b/c `` is wrong (with or without a trailing newline). -/
theorem c5_collapse_counterexample :
    render_narrow STYLE_ASCII [("a/b/c").toList] = ("a/b/c\n").toList ∧
    render_narrow STYLE_ASCII [("a/b/c").toList] ≠
      ("`-- a/b/c\n").toList ∧
    render_narrow STYLE_ASCII [("a/b/c").toList] ≠
      ("`-- a/b/c").toList := by
  refine ⟨by decide, by decide, by decide⟩

/-- C5 amended: the single input `a/b/c` renders as exactly one physical
line, `a/b/c` followed by one newline: the single-child chain is collapsed
onto one line joined by `/` with no internal branch glyphs and no newline
after a single-child node, and no leading branch glyph is emitted because the
chain starts at a depth-1 node. -/
theorem c5_collapse_amended :
    render_narrow STYLE_ASCII [("a/b/c").toList] = ("a/b/c\n").toList := by
  decide

/-- C6: for input `/x` the code hands the decorator the path string `//x`,
not the claimed `/x`.  `NodeTraversal.path_str` tests
`self.parent not in SPECIALS`, comparing the parent cursor OBJECT (not its
node's value) against the sentinel strings; the test is always true, so a
separator is appended even directly below the `ROOT_SLASH` sentinel. -/
theorem c6_path_str_double_slash_bug :
    ((tree_cursors [("/x").toList]).getD 1 dummyNT).pathStr =
      ("//x").toList ∧
    ("//x").toList ≠ ("/x").toList := by
  refine ⟨by decide, by decide⟩

/-- C8: `readline0` does yield exactly the delimiter-separated fields —
including a trailing partial field when the stream does not end in the
delimiter, as at the concrete chunking `["ab", "c\x00de"]` below — but
iteration does not terminate normally: the trailing `raise StopIteration`
makes the generator end in a `RuntimeError` under PEP 479 (Python ≥ 3.7). -/
theorem c8_readline0_runtime_error :
    (readline0 '\x00' [("ab").toList, ("c\x00de").toList]).1 =
      [("abc").toList, ("de").toList] ∧
    (readline0 '\x00' [("ab").toList, ("c\x00de").toList]).2 =
      GenEnd.runtimeError := by
  refine ⟨by decide, rfl⟩

/-- C9: when the collaborator's non-artifact response lines pair up one per
batch node, decoration fails exactly when the process exits nonzero or some
non-artifact response line fails to parse — the whole batch aborts — and on
success every node of the batch has its color and value set from its
corresponding response line, bare reset-artifact lines being skipped without
consuming a request slot. -/
theorem c9_decoration_error_iff
    (parse : List Char → Option (Option (List Char) × List Char))
    (respLines : List (List Char)) (exitCode : Nat) (batch : List PyNode)
    (hcount : (respLines.filter (fun l => !(isResetArtifact l))).length =
      batch.length) :
    (postprocess_path parse respLines exitCode batch = Except.error () ↔
      exitCode ≠ 0 ∨
        ∃ l ∈ respLines, isResetArtifact l = false ∧ parse l = none) ∧
    (∀ r, postprocess_path parse respLines exitCode batch = Except.ok r →
      r = List.zipWith (decorateNode parse) batch
        (respLines.filter (fun l => !(isResetArtifact l)))) := by
  obtain ⟨herr, hok⟩ := ppLoop_spec parse respLines batch hcount
  unfold postprocess_path
  cases hl : ppLoop parse respLines batch with
  | error e =>
    cases e
    constructor
    · constructor
      · intro _
        exact Or.inr (herr.mp hl)
      · intro _
        rfl
    · intro r hr
      cases hr
  | ok q =>
    dsimp only
    by_cases hz : exitCode = 0
    · rw [if_pos hz]
      constructor
      · constructor
        · intro h
          cases h
        · rintro (h | h)
          · exact absurd hz h
          · rw [herr.symm.mp h] at hl
            cases hl
      · intro r hr
        cases hr
        exact hok q hl
    · rw [if_neg hz]
      constructor
      · constructor
        · intro _
          exact Or.inl hz
        · intro _
          rfl
      · intro r hr
        cases hr

theorem c9_decoration_error_iff_witness :
    (postprocess_path parseEcho [END_LS, ("x").toList] 0 [dummyNode] =
        Except.error () ↔
      (0 : Nat) ≠ 0 ∨
        ∃ l ∈ [END_LS, ("x").toList],
          isResetArtifact l = false ∧ parseEcho l = none) ∧
    (∀ r, postprocess_path parseEcho [END_LS, ("x").toList] 0 [dummyNode] =
        Except.ok r →
      r = List.zipWith (decorateNode parseEcho) [dummyNode]
        ([END_LS, ("x").toList].filter (fun l => !(isResetArtifact l)))) :=
  c9_decoration_error_iff parseEcho [END_LS, ("x").toList] 0 [dummyNode]
    (by decide)
